import Mathlib

/-!
Verification development for the sandbox.rag task-retrieval system.

The definitions below are a shallow embedding of the Python sources:
the task database (src/database/rag_task_db.py), the session cache
(src/ui/rag_cache.py), the vector index with batch LLM enhancement
(src/todo.context.py) and the knowledge-base chunking entry point
(src/rag/rag_system.py).  External collaborators (SQLite, the embedding
model, the LLM generation call) are modelled as explicit parameters or
oracles, following the source's use of them.
-/

namespace SandboxRag

/-- Model of a Python dict over Nat keys as an association list:
insertion overwrites the value of an existing key in place and appends
a fresh key at the end, matching dict insertion-order semantics. -/
def dinsert {β : Type} (k : Nat) (v : β) : List (Nat × β) → List (Nat × β)
  | [] => [(k, v)]
  | (k', v') :: rest => if k' = k then (k', v) :: rest else (k', v') :: dinsert k v rest

/-- Dict built from a list of key-value pairs (a Python dict comprehension:
later pairs overwrite earlier ones). -/
def dictOfPairs {β : Type} (ps : List (Nat × β)) : List (Nat × β) :=
  ps.foldl (fun d p => dinsert p.1 p.2 d) []

/-- Dict lookup on the association-list model (first matching key). -/
def dlookup {β : Type} (k : Nat) : List (Nat × β) → Option β
  | [] => none
  | (k', v) :: rest => if k' = k then some v else dlookup k rest

/-- Helper for pySplitComma: accumulates the current piece (reversed). -/
def splitCommaAux : List Char → List Char → List (List Char)
  | cur, [] => [cur.reverse]
  | cur, ch :: rest =>
      if ch = ',' then cur.reverse :: splitCommaAux [] rest
      else splitCommaAux (ch :: cur) rest

/-- Python's str.split(',') as used on the comma-joined tags column:
pieces between commas, keeping empty pieces, one piece for the empty
string. -/
def pySplitComma (s : String) : List String :=
  (splitCommaAux [] s.data).map (fun cs => String.mk cs)

namespace RagDB

/-- A persisted task row, exactly the columns of the tasks table
(src/database/rag_task_db.py, initialize_tables): tags are stored as a
single comma-joined string. -/
structure Task where
  id : Nat
  title : String
  description : String
  tags : String
  timestamp : String
deriving DecidableEq, Repr

/-- The task argument passed to add_task / update_task: a dict with
title, description, a tags list and a timestamp. -/
structure TaskInput where
  title : String
  description : String
  tags : List String
  timestamp : String
deriving DecidableEq, Repr

/-- The comma join performed by both add_task and update_task before
writing the tags column. -/
def joinTags (tags : List String) : String := String.intercalate "," tags

/-- The observable database state: the rows of the tasks table, the
AUTOINCREMENT counter, and the single cache_versions row (id = 1). -/
structure DBState where
  rows : List Task
  nextId : Nat
  version : Nat
deriving DecidableEq, Repr

/-- State after TaskDatabase.initialize_tables on a fresh database:
no tasks, AUTOINCREMENT at 1, and the cache_versions row inserted
with version 1 (INSERT OR IGNORE ... VALUES (1, 1)). -/
def initDB : DBState := ⟨[], 1, 1⟩

/-- Effect of the INSERT in add_task: a new row with the next rowid. -/
def insertRow (db : DBState) (t : TaskInput) : DBState × Nat :=
  ({ rows := db.rows ++ [⟨db.nextId, t.title, t.description, joinTags t.tags, t.timestamp⟩],
     nextId := db.nextId + 1, version := db.version }, db.nextId)

/-- Effect of the UPDATE in update_task on the tasks table: every row
whose id matches is overwritten with the new field values. -/
def updateRows (rows : List Task) (tid : Nat) (t : TaskInput) : List Task :=
  rows.map (fun r =>
    if r.id = tid then ⟨r.id, t.title, t.description, joinTags t.tags, t.timestamp⟩ else r)

/-- Cursor rowcount of the UPDATE in update_task: the number of rows
whose id matched. -/
def updateMatchCount (rows : List Task) (tid : Nat) : Nat :=
  (rows.filter (fun r => r.id = tid)).length

/-- A SQLite connection as seen by the code: the last committed state
(observable by other readers of the file) and the pending state of the
current transaction.  conn.commit publishes pending; conn.rollback
restores pending from committed. -/
structure Conn where
  committed : DBState
  pending : DBState
deriving DecidableEq, Repr

/-- TaskDatabase._increment_cache_version: UPDATE the cache_versions row,
then conn.commit.  Returns the connection and the committed snapshot it
publishes. -/
def incrementCacheVersion (c : Conn) : Conn × List DBState :=
  let p : DBState := { c.pending with version := c.pending.version + 1 }
  (⟨p, p⟩, [p])

/-- The update_task result dict: the full task object with the updated
values, tags still a list (it is built from the input dict, not from the
stored row). -/
structure UpdatedTask where
  id : Nat
  title : String
  description : String
  tags : List String
  timestamp : String
deriving DecidableEq, Repr

/-- TaskDatabase.add_task under the version_aware wrapper, at the
granularity of commits.  sqlFail models the INSERT raising
sqlite3.Error (caught inside add_task, which then returns None).
Returns (result, final connection, list of committed snapshots
published by each conn.commit that ran). -/
def addTaskConn (c : Conn) (t : TaskInput) (sqlFail : Bool) :
    Option Nat × Conn × List DBState :=
  if sqlFail then
    -- INSERT raised: add_task returns None; the wrapper skips the
    -- version bump and its final conn.commit publishes pending as is.
    (none, ⟨c.pending, c.pending⟩, [c.pending])
  else
    let (p1, rid) := insertRow c.pending t
    -- the conn.commit inside add_task, before returning lastrowid
    let c1 : Conn := ⟨p1, p1⟩
    -- result is a rowid (not None/False), so the wrapper increments
    let (c2, tr2) := incrementCacheVersion c1
    -- the wrapper's final conn.commit
    (some rid, ⟨c2.pending, c2.pending⟩, [p1] ++ tr2 ++ [c2.pending])

/-- TaskDatabase.update_task under the version_aware wrapper, at the
granularity of commits.  sqlFail models the UPDATE raising
sqlite3.Error (caught, update_task returns False). -/
def updateTaskConn (c : Conn) (tid : Nat) (t : TaskInput) (sqlFail : Bool) :
    Option UpdatedTask × Conn × List DBState :=
  if sqlFail then
    (none, ⟨c.pending, c.pending⟩, [c.pending])
  else
    let matched := updateMatchCount c.pending.rows tid
    let p1 : DBState := { c.pending with rows := updateRows c.pending.rows tid t }
    -- the conn.commit inside update_task
    let c1 : Conn := ⟨p1, p1⟩
    if 0 < matched then
      -- rowcount > 0: return the updated task dict; wrapper increments
      let (c2, tr2) := incrementCacheVersion c1
      (some ⟨tid, t.title, t.description, t.tags, t.timestamp⟩,
       ⟨c2.pending, c2.pending⟩, [p1] ++ tr2 ++ [c2.pending])
    else
      -- rowcount = 0: update_task returns False; wrapper skips the bump
      (none, ⟨c1.pending, c1.pending⟩, [p1, c1.pending])

/-- End-state view of add_task: the result and the finally committed
database state. -/
def addTask (db : DBState) (t : TaskInput) (sqlFail : Bool) : Option Nat × DBState :=
  let r := addTaskConn ⟨db, db⟩ t sqlFail
  (r.1, r.2.1.committed)

/-- End-state view of update_task. -/
def updateTask (db : DBState) (tid : Nat) (t : TaskInput) (sqlFail : Bool) :
    Option UpdatedTask × DBState :=
  let r := updateTaskConn ⟨db, db⟩ tid t sqlFail
  (r.1, r.2.1.committed)

/-- The committed snapshots published while one add_task call runs on a
quiescent connection (no SQL failure). -/
def addTaskTrace (db : DBState) (t : TaskInput) : List DBState :=
  (addTaskConn ⟨db, db⟩ t false).2.2

/-- A mutating task operation, with a flag for an environmental
sqlite3.Error during its SQL statement. -/
inductive TaskOp where
  | add (t : TaskInput) (sqlFail : Bool)
  | update (tid : Nat) (t : TaskInput) (sqlFail : Bool)
deriving DecidableEq, Repr

/-- Run one operation; the Bool is the version_aware success test
(result is not None and is not False). -/
def applyOp (db : DBState) : TaskOp → Bool × DBState
  | .add t f => let r := addTask db t f; (r.1.isSome, r.2)
  | .update tid t f => let r := updateTask db tid t f; (r.1.isSome, r.2)

/-- Run a sequence of task operations. -/
def applyOps (db : DBState) (ops : List TaskOp) : DBState :=
  ops.foldl (fun d op => (applyOp d op).2) db

/-- SQLite LIKE folds ASCII letters case-insensitively; this is the
per-character fold it applies. -/
def foldCase (c : Char) : Char :=
  if 'A' ≤ c ∧ c ≤ 'Z' then Char.ofNat (c.toNat + 32) else c

/-- SQLite LIKE pattern matching of a pattern against a whole string:
'%' matches any sequence of zero or more characters, '_' matches
exactly one character, and every other pattern character matches one
string character up to ASCII case folding.  The fuel argument only
bounds the recursion so the definition is structurally recursive (and
hence evaluates in the kernel): every step shrinks
pattern length + string length by at least one, and likeMatch below
always supplies more fuel than that sum, so the fuel-exhausted branch
is never reached from likeMatch. -/
def likeMatchFuel : Nat → List Char → List Char → Bool
  | 0, _, _ => false
  | _ + 1, [], s => s.isEmpty
  | fuel + 1, pc :: ps, s =>
      if pc = '%' then
        likeMatchFuel fuel ps s ||
          (match s with
           | [] => false
           | _ :: rest => likeMatchFuel fuel (pc :: ps) rest)
      else
        match s with
        | [] => false
        | sc :: rest =>
            (pc == '_' || foldCase pc == foldCase sc) && likeMatchFuel fuel ps rest

/-- The SQL condition tags LIKE '%' || tag || '%' used by
get_tasks_by_tags, under SQLite LIKE semantics: ASCII case-insensitive,
with '_' in the tag matching any single character and '%' in the tag
matching any sequence of characters. -/
def likeMatch (s pat : String) : Bool :=
  likeMatchFuel (pat.data.length + s.data.length + 3)
    ('%' :: (pat.data ++ ['%'])) s.data

/-- TaskDatabase.get_tasks_by_tags: SELECT rows WHERE tags LIKE
'%' || tag || '%', in table order. -/
def getTasksByTags (rows : List Task) (tag : String) : List Task :=
  rows.filter (fun r => likeMatch r.tags tag)

end RagDB

namespace Cache

open RagDB

/-- The st.session_state.task_cache entry of CacheService:
a version, the id-keyed task dict, and the loaded flag. -/
structure CacheState where
  version : Nat
  tasks : List (Nat × Task)
  loaded : Bool
deriving DecidableEq, Repr

/-- CacheService._init_cache_state: version 0, empty dict, not loaded. -/
def initCache : CacheState := ⟨0, [], false⟩

/-- The dict comprehension in load_cache: keyed by task id. -/
def dictById (rows : List Task) : List (Nat × Task) :=
  dictOfPairs (rows.map (fun t => (t.id, t)))

/-- CacheService.load_cache: read the store's cache version; if the
cache is not loaded or its version differs, reload all tasks from the
store, record the observed version and mark the cache loaded; otherwise
leave the cache untouched. -/
def loadCache (db : DBState) (c : CacheState) : CacheState :=
  let current := db.version
  if c.loaded = false ∨ c.version ≠ current then
    { version := current, tasks := dictById db.rows, loaded := true }
  else c

/-- The dict's value view (list(...values())). -/
def cacheValues (c : CacheState) : List Task := c.tasks.map Prod.snd

/-- CacheService.get_tasks: load_cache first, then either all cached
tasks (no filter, empty filter, or 'All') or those whose comma-split
tags list contains the filter tag as an element.  Returns the updated
cache together with the result. -/
def getTasks (db : DBState) (c : CacheState) (filterTag : Option String) :
    CacheState × List Task :=
  let c' := loadCache db c
  match filterTag with
  | none => (c', cacheValues c')
  | some tag =>
      if tag = "" ∨ tag = "All" then (c', cacheValues c')
      else (c', (cacheValues c').filter (fun t => (pySplitComma t.tags).contains tag))

/-- CacheService.invalidate_cache: mark the cache stale. -/
def invalidateCache (c : CacheState) : CacheState := { c with loaded := false }

end Cache

namespace Ctx

/-- A task record of todo.context.py (dataclass Task). -/
structure CtxTask where
  id : Nat
  title : String
  description : String
  createdAt : String
deriving DecidableEq, Repr

/-- Outcome environment of the external pieces of
EnhancedVectorIndex.enhance_task_descriptions: the use_llm flag and the
result of the generate_content_async call (none models the call
raising; some resp models response.text = resp). -/
structure EnhanceEnv where
  useLLM : Bool
  genResponse : Option String
deriving DecidableEq, Repr

/-- The tags extraction inside enhance_task_descriptions: rfind('TAGS:')
splits the record at its last TAGS: occurrence ('TAGS:' cannot overlap
itself, so the last splitOn separator is the rfind position); both
pieces are stripped.  Without a TAGS: occurrence the whole record is the
enhanced text and the tags are empty. -/
def splitTagsPart (part : String) : String × String :=
  let pieces := part.splitOn "TAGS:"
  if pieces.length ≤ 1 then (part, "")
  else ((String.intercalate "TAGS:" pieces.dropLast).trim,
        ("TAGS:" ++ pieces.getLastD "").trim)

/-- EnhancedVectorIndex.enhance_task_descriptions: with use_llm off, or
when the generation call raises, every input id maps to its original
text; otherwise the response is split on TASK: (dropping the leading
piece) and each input, by position, is combined with its record — inputs
beyond the parsed records keep their original text. -/
def enhanceTaskDescriptions (env : EnhanceEnv) (tasks : List (Nat × String)) :
    List (Nat × String) :=
  if env.useLLM = false then dictOfPairs tasks
  else
    match env.genResponse with
    | none => dictOfPairs tasks
    | some resp =>
        let batch := (resp.splitOn "TASK:").drop 1
        tasks.enum.foldl (fun d p =>
          dinsert p.2.1
            (if p.1 < batch.length then
              p.2.2 ++ " " ++ (splitTagsPart ((batch.getD p.1 "").trim)).1
                ++ " " ++ (splitTagsPart ((batch.getD p.1 "").trim)).2
             else p.2.2) d) []

/-- The EnhancedVectorIndex state: the faiss IndexFlatL2 vectors, the
parallel task_ids list, and the enhanced_embeddings cache (which,
unlike the index, is not reset by a rebuild). -/
structure VIndex where
  vectors : List (List Int)
  taskIds : List Nat
  enhancedCache : List (Nat × List Int)

/-- The (task.id, text) pairs prepared by build_index_for_tasks:
title and description joined by a space, stripped. -/
def taskTexts (tasks : List CtxTask) : List (Nat × String) :=
  tasks.map (fun t => (t.id, (t.title ++ " " ++ t.description).trim))

/-- EnhancedVectorIndex.build_index_for_tasks: reset the index and
task_ids, enhance all task texts in one batch, embed every enhanced
text, then store embeddings, ids and the per-task embedding cache.
The embedding model is the injected function embed.  The dict access
enhanced_texts[task_id] never misses (every input id is a key of the
enhancement result); the getD default is arbitrary. -/
def buildIndexForTasks (embed : String → List Int) (env : EnhanceEnv)
    (prior : VIndex) (tasks : List CtxTask) : VIndex :=
  let tt := taskTexts tasks
  let enhanced := enhanceTaskDescriptions env tt
  let allTexts := tt.map (fun p => (dlookup p.1 enhanced).getD p.2)
  let allEmbeddings := allTexts.map embed
  { vectors := allEmbeddings
    taskIds := tt.map Prod.fst
    enhancedCache := tt.enum.foldl
      (fun c p => dinsert p.2.1 (allEmbeddings.getD p.1 []) c) prior.enhancedCache }

/-- Squared L2 distance, the metric of faiss.IndexFlatL2. -/
def sqDist (u v : List Int) : Int :=
  ((u.zip v).map (fun p => (p.1 - p.2) * (p.1 - p.2))).sum

/-- Ranking used to model the faiss result order: by distance, ties by
lower vector index. -/
def distRank : Int × Nat → Int × Nat → Prop :=
  fun a b => a.1 < b.1 ∨ (a.1 = b.1 ∧ a.2 ≤ b.2)

instance : DecidableRel distRank := fun a b => by
  unfold distRank; infer_instance

instance : IsTotal (Int × Nat) distRank :=
  ⟨by intro a b; unfold distRank; omega⟩

instance : IsTrans (Int × Nat) distRank :=
  ⟨by intro a b c hab hbc; unfold distRank at hab hbc ⊢; omega⟩

/-- All vector positions of the index sorted by distance to the query
(ties by position). -/
def argsortByDist (vecs : List (List Int)) (q : List Int) : List Nat :=
  (List.insertionSort distRank
    ((List.range vecs.length).map (fun i => (sqDist (vecs.getD i []) q, i)))).map Prod.snd

/-- The real (non-padding) row indices faiss returns for a k-NN query. -/
def searchResultIndices (vecs : List (List Int)) (q : List Int) (k : Nat) : List Nat :=
  (argsortByDist vecs q).take k

/-- faiss IndexFlatL2.search row of indices: the up-to-k nearest vector
positions in increasing distance order, padded with -1 up to length k
when fewer than k vectors are indexed. -/
def faissSearch (vecs : List (List Int)) (q : List Int) (k : Nat) : List Int :=
  let idxs := searchResultIndices vecs q k
  idxs.map (fun i => Int.ofNat i) ++ List.replicate (k - idxs.length) (-1)

/-- EnhancedVectorIndex.search: embed the query, run the faiss search,
keep the non -1 indices and map them through task_ids. -/
def searchIndex (st : VIndex) (embed : String → List Int) (query : String)
    (k : Nat) : List Nat :=
  ((faissSearch st.vectors (embed query) k).filter (fun i => i != -1)).map
    (fun i => st.taskIds.getD i.toNat 0)

end Ctx

namespace Chunk

/-- Modelled from the spec: the chunker used by create_documents_from_kb
(src/rag/rag_system.py) is langchain's RecursiveCharacterTextSplitter,
an external library whose code is not in this repository; the spec
describes file chunking as a sliding window over characters with window
length chunk_size and stride chunk_size - chunk_overlap.  The stride is
clamped to at least 1 so the definition is total; for the spec's valid
parameters (chunk_size > chunk_overlap) the clamp is inert. -/
def chunkList (c o : Nat) (l : List Char) : List (List Char) :=
  if h : l = [] then []
  else l.take c :: chunkList c o (l.drop (max 1 (c - o)))
termination_by l.length
decreasing_by
  simp only [List.length_drop]
  have hl : 0 < l.length := List.length_pos.mpr h
  omega

/-- Concatenation of the chunks' covered spans accounting for the
declared overlap: the first chunk in full, every later chunk with its
leading overlap characters removed. -/
def reassemble (o : Nat) : List (List Char) → List Char
  | [] => []
  | h :: t => h ++ (t.map (List.drop o)).flatten

end Chunk

/-! Theorems.  First the association-list dictionary lemmas shared by the
cache and enhancement proofs, then the claims. -/

theorem dlookup_dinsert {β : Type} (k k' : Nat) (v : β) (d : List (Nat × β)) :
    dlookup k (dinsert k' v d) = if k' = k then some v else dlookup k d := by
  induction d with
  | nil => simp [dinsert, dlookup]
  | cons hd tl ih =>
      obtain ⟨k₀, v₀⟩ := hd
      by_cases h : k₀ = k'
      · subst h
        by_cases h2 : k₀ = k <;> simp [dinsert, dlookup, h2]
      · by_cases h2 : k₀ = k
        · subst h2
          have hne : ¬ k' = k₀ := fun hh => h hh.symm
          simp [dinsert, dlookup, h, hne]
        · simp [dinsert, dlookup, h, h2, ih]

theorem isSome_dlookup_foldl {β γ : Type} (key : γ → Nat) (val : γ → β)
    (l : List γ) (d0 : List (Nat × β)) (k : Nat) :
    (dlookup k (l.foldl (fun d a => dinsert (key a) (val a) d) d0)).isSome = true ↔
      k ∈ l.map key ∨ (dlookup k d0).isSome = true := by
  induction l generalizing d0 with
  | nil => simp
  | cons a l ih =>
      simp only [List.foldl_cons, List.map_cons, List.mem_cons]
      rw [ih]
      rw [dlookup_dinsert]
      by_cases h : key a = k
      · simp [h]
      · have h' : ¬ k = key a := fun hh => h hh.symm
        simp [h, h']

theorem dlookup_foldl_of_not_mem {β γ : Type} (key : γ → Nat) (val : γ → β)
    (l : List γ) (d0 : List (Nat × β)) (k : Nat) (hk : ∀ a ∈ l, key a ≠ k) :
    dlookup k (l.foldl (fun d a => dinsert (key a) (val a) d) d0) = dlookup k d0 := by
  induction l generalizing d0 with
  | nil => rfl
  | cons a l ih =>
      simp only [List.foldl_cons]
      rw [ih _ (fun b hb => hk b (List.mem_cons_of_mem a hb))]
      rw [dlookup_dinsert]
      simp [hk a (List.mem_cons_self a l)]

theorem dlookup_foldl_of_mem {β γ : Type} (key : γ → Nat) (val : γ → β)
    (l : List γ) (d0 : List (Nat × β)) (a : γ)
    (hnd : (l.map key).Nodup) (ha : a ∈ l) :
    dlookup (key a) (l.foldl (fun d b => dinsert (key b) (val b) d) d0) = some (val a) := by
  induction l generalizing d0 with
  | nil => cases ha
  | cons b l ih =>
      simp only [List.map_cons, List.nodup_cons] at hnd
      simp only [List.foldl_cons]
      rcases List.mem_cons.mp ha with h | h
      · subst h
        rw [dlookup_foldl_of_not_mem]
        · rw [dlookup_dinsert]; simp
        · intro c hc hcb
          exact hnd.1 (hcb ▸ List.mem_map_of_mem key hc)
      · exact ih _ hnd.2 h

theorem dinsert_of_not_key {β : Type} (k : Nat) (v : β) (d : List (Nat × β))
    (hk : ∀ q ∈ d, q.1 ≠ k) : dinsert k v d = d ++ [(k, v)] := by
  induction d with
  | nil => rfl
  | cons q d ih =>
      have h1 : q.1 ≠ k := hk q (List.mem_cons_self q d)
      simp only [dinsert, h1, if_false]
      rw [ih (fun p hp => hk p (List.mem_cons_of_mem q hp))]
      simp

theorem foldl_dinsert_of_nodup {β : Type} (ps : List (Nat × β)) (d0 : List (Nat × β))
    (hnd : (ps.map Prod.fst).Nodup) (hdis : ∀ p ∈ ps, ∀ q ∈ d0, q.1 ≠ p.1) :
    ps.foldl (fun d p => dinsert p.1 p.2 d) d0 = d0 ++ ps := by
  induction ps generalizing d0 with
  | nil => simp
  | cons p ps ih =>
      simp only [List.map_cons, List.nodup_cons] at hnd
      simp only [List.foldl_cons]
      rw [dinsert_of_not_key p.1 p.2 d0 (fun q hq => hdis p (List.mem_cons_self p ps) q hq)]
      rw [ih _ hnd.2]
      · simp
      · intro r hr q hq
        rcases List.mem_append.mp hq with h | h
        · exact hdis r (List.mem_cons_of_mem p hr) q h
        · have hq' : q = (p.1, p.2) := by simpa using h
          intro hqr
          exact hnd.1 (by
            rw [hq'] at hqr
            simpa [← hqr] using List.mem_map_of_mem Prod.fst hr)

/-- A dict built from pairs with distinct keys is those pairs in order. -/
theorem dictOfPairs_of_nodup {β : Type} (ps : List (Nat × β))
    (hnd : (ps.map Prod.fst).Nodup) : dictOfPairs ps = ps := by
  have := foldl_dinsert_of_nodup ps [] hnd (by intro p _ q hq; cases hq)
  simpa [dictOfPairs] using this

namespace RagDB

/-- A successful operation (result neither None nor False) bumps the
persisted cache version by exactly one; a failed one leaves it alone. -/
theorem applyOp_version (db : DBState) (op : TaskOp) :
    ((applyOp db op).1 = true → ((applyOp db op).2).version = db.version + 1) ∧
    ((applyOp db op).1 = false → ((applyOp db op).2).version = db.version) := by
  cases op with
  | add t f =>
      cases f <;>
        simp [applyOp, addTask, addTaskConn, insertRow, incrementCacheVersion]
  | update tid t f =>
      cases f
      · by_cases hm : 0 < updateMatchCount db.rows tid <;>
          simp [applyOp, updateTask, updateTaskConn, hm, incrementCacheVersion]
      · simp [applyOp, updateTask, updateTaskConn]

theorem applyOp_version_mono (db : DBState) (op : TaskOp) :
    db.version ≤ ((applyOp db op).2).version := by
  cases h : (applyOp db op).1
  · exact le_of_eq ((applyOp_version db op).2 h).symm
  · rw [(applyOp_version db op).1 h]
    omega

theorem applyOps_version_mono (db : DBState) (ops : List TaskOp) :
    db.version ≤ (applyOps db ops).version := by
  induction ops generalizing db with
  | nil => exact le_refl _
  | cons op ops ih =>
      calc db.version ≤ ((applyOp db op).2).version := applyOp_version_mono db op
        _ ≤ (applyOps ((applyOp db op).2) ops).version := ih _
        _ = (applyOps db (op :: ops)).version := rfl

/-- C1: over any sequence of add/update operations, each successful
mutation (add_task returning a row id, update_task returning the
updated task) increments the persisted cache version by exactly 1, each
failed mutation leaves it unchanged, the version starts at 1, and no
task operation ever decreases it. -/
theorem claim_C1_cache_version_counter :
    (∀ (db : DBState) (op : TaskOp),
      ((applyOp db op).1 = true → ((applyOp db op).2).version = db.version + 1) ∧
      ((applyOp db op).1 = false → ((applyOp db op).2).version = db.version)) ∧
    initDB.version = 1 ∧
    (∀ (db : DBState) (ops : List TaskOp), db.version ≤ (applyOps db ops).version) :=
  ⟨applyOp_version, rfl, applyOps_version_mono⟩

theorem claim_C1_witness :
    (applyOp initDB (TaskOp.add ⟨"Buy milk", "", ["errand"], "t0"⟩ false)).1 = true ∧
    ((applyOp initDB (TaskOp.add ⟨"Buy milk", "", ["errand"], "t0"⟩ false)).2).version
      = initDB.version + 1 :=
  ⟨rfl, (claim_C1_cache_version_counter.1 initDB
          (TaskOp.add ⟨"Buy milk", "", ["errand"], "t0"⟩ false)).1 rfl⟩

/-- C2: the claim that the task-row write and the version bump are
committed atomically in one transaction is false on the code: add_task
itself commits the INSERT before _increment_cache_version commits the
bump, so a successful add_task on a fresh store publishes an
intermediate committed state that already contains the new row while
the cache version is still 1.  This theorem evaluates the committed
snapshots of one add_task call at that failing input. -/
theorem claim_C2_commit_trace :
    addTaskTrace initDB ⟨"T", "", [], "ts"⟩ =
      [⟨[⟨1, "T", "", "", "ts"⟩], 2, 1⟩,
       ⟨[⟨1, "T", "", "", "ts"⟩], 2, 2⟩,
       ⟨[⟨1, "T", "", "", "ts"⟩], 2, 2⟩] ∧
    ∃ s ∈ addTaskTrace initDB ⟨"T", "", [], "ts"⟩,
      s.rows ≠ initDB.rows ∧ s.version = initDB.version := by
  refine ⟨by decide, ⟨⟨[⟨1, "T", "", "", "ts"⟩], 2, 1⟩, by decide, by decide, by decide⟩⟩

/-- C4 counterexample: a task whose only tag merely contains the query
tag as a proper substring is nonetheless returned by get_tasks_by_tags
(the SQL filter is tags LIKE '%tag%'), refuting whole-token matching. -/
theorem claim_C4_counterexample :
    getTasksByTags [⟨1, "P", "", "Project AB", "ts"⟩] "Project A" =
      [⟨1, "P", "", "Project AB", "ts"⟩] ∧
    ¬ ("Project A" ∈ pySplitComma "Project AB") := by
  constructor
  · decide
  · decide

/-- C4 amended: get_tasks_by_tags returns exactly the stored tasks whose
comma-joined tags string matches the SQL pattern '%' || tag || '%' under
SQLite LIKE semantics (ASCII case-insensitive; '_' in the tag matches
any single character, '%' any sequence), in table order — so literal
substring containment of the tag suffices and whole-token containment
is not required.  The closed conjuncts pin the wildcard semantics:
'foo_bar' matches tags 'fooxbar' but not 'foobar', and 'foo%bar'
matches across an arbitrary gap. -/
theorem claim_C4_amended :
    (∀ (rows : List Task) (tag : String) (t : Task),
        t ∈ getTasksByTags rows tag ↔ t ∈ rows ∧ likeMatch t.tags tag = true) ∧
    likeMatch "fooxbar" "foo_bar" = true ∧
    likeMatch "foobar" "foo_bar" = false ∧
    likeMatch "foo and bar" "foo%bar" = true ∧
    getTasksByTags [⟨2, "W", "", "fooxbar", "ts"⟩] "foo_bar" =
      [⟨2, "W", "", "fooxbar", "ts"⟩] := by
  refine ⟨?_, by decide, by decide, by decide, by decide⟩
  intro rows tag t
  simp [getTasksByTags, List.mem_filter]

theorem claim_C4_amended_witness :
    (⟨1, "P", "", "Project AB", "ts"⟩ : Task) ∈
        getTasksByTags [⟨1, "P", "", "Project AB", "ts"⟩] "Project A" ↔
      (⟨1, "P", "", "Project AB", "ts"⟩ : Task) ∈
        [(⟨1, "P", "", "Project AB", "ts"⟩ : Task)] ∧
      likeMatch "Project AB" "Project A" = true :=
  claim_C4_amended.1 [⟨1, "P", "", "Project AB", "ts"⟩] "Project A"
    ⟨1, "P", "", "Project AB", "ts"⟩

end RagDB

namespace Cache

open RagDB

theorem loadCache_hit (db : DBState) (c : CacheState)
    (h1 : c.loaded = true) (h2 : c.version = db.version) : loadCache db c = c := by
  simp [loadCache, h1, h2]

theorem loadCache_reload (db : DBState) (c : CacheState)
    (h : c.loaded = false ∨ c.version ≠ db.version) :
    loadCache db c = ⟨db.version, dictById db.rows, true⟩ := by
  rcases h with h | h <;> simp [loadCache, h]

theorem loadCache_state (db : DBState) (c : CacheState) :
    (loadCache db c).loaded = true ∧ (loadCache db c).version = db.version := by
  by_cases h1 : c.loaded = true
  · by_cases h2 : c.version = db.version
    · rw [loadCache_hit db c h1 h2]
      exact ⟨h1, h2⟩
    · rw [loadCache_reload db c (Or.inr h2)]
      exact ⟨rfl, rfl⟩
  · rw [loadCache_reload db c (Or.inl (by simpa using h1))]
    exact ⟨rfl, rfl⟩

theorem dictById_map_snd (rows : List Task)
    (h : (rows.map Task.id).Nodup) : (dictById rows).map Prod.snd = rows := by
  unfold dictById
  rw [dictOfPairs_of_nodup]
  · rw [List.map_map]
    exact List.map_id rows
  · simpa [List.map_map, Function.comp] using h

/-- C3: a cache read at the store's current version and loaded serves
the cached data unchanged; a read with the loaded flag off or a version
mismatch fully reloads from the store and records the observed version;
after a load the cache is loaded at exactly the store version it
observed; and a read after any successful mutation serves the store's
post-mutation rows, never the pre-mutation snapshot. -/
theorem claim_C3_versioned_cache_consistency :
    (∀ (db : DBState) (c : CacheState),
        c.loaded = true → c.version = db.version → loadCache db c = c) ∧
    (∀ (db : DBState) (c : CacheState),
        c.loaded = false ∨ c.version ≠ db.version →
        loadCache db c = ⟨db.version, dictById db.rows, true⟩) ∧
    (∀ (db : DBState) (c : CacheState),
        (loadCache db c).loaded = true ∧ (loadCache db c).version = db.version) ∧
    (∀ (db : DBState) (c : CacheState) (op : TaskOp),
        c.loaded = true → c.version = db.version →
        (applyOp db op).1 = true →
        (((applyOp db op).2).rows.map Task.id).Nodup →
        (getTasks ((applyOp db op).2) c none).2 = ((applyOp db op).2).rows) := by
  refine ⟨loadCache_hit, loadCache_reload, loadCache_state, ?_⟩
  intro db c op h1 h2 hok hnd
  have hv : ((applyOp db op).2).version = db.version + 1 :=
    (applyOp_version db op).1 hok
  have hne : c.version ≠ ((applyOp db op).2).version := by
    rw [hv, h2]; omega
  show cacheValues (loadCache ((applyOp db op).2) c) = ((applyOp db op).2).rows
  rw [loadCache_reload _ _ (Or.inr hne)]
  exact dictById_map_snd _ hnd

theorem claim_C3_witness :
    ((RagDB.applyOp RagDB.initDB
        (TaskOp.add ⟨"A", "d", ["x"], "t1"⟩ false)).1 = true) ∧
    (getTasks ((RagDB.applyOp RagDB.initDB
        (TaskOp.add ⟨"A", "d", ["x"], "t1"⟩ false)).2) ⟨1, [], true⟩ none).2 =
      ((RagDB.applyOp RagDB.initDB
        (TaskOp.add ⟨"A", "d", ["x"], "t1"⟩ false)).2).rows :=
  ⟨rfl, claim_C3_versioned_cache_consistency.2.2.2 RagDB.initDB ⟨1, [], true⟩
    (TaskOp.add ⟨"A", "d", ["x"], "t1"⟩ false) rfl rfl rfl (by decide)⟩

/-- C9: a fresh session cache starts at version 0 and not loaded, while
the persisted cache version starts at 1 and task operations never bring
it below 1, so 0 is never a valid store version; hence the first
load_cache after initialization always reloads from the store and can
never serve the empty initial cache as a hit. -/
theorem claim_C9_initial_cache_never_hits :
    initCache.version = 0 ∧ initCache.loaded = false ∧
    RagDB.initDB.version = 1 ∧
    (∀ ops : List TaskOp, 1 ≤ (applyOps RagDB.initDB ops).version) ∧
    (∀ db : DBState,
        loadCache db initCache = ⟨db.version, dictById db.rows, true⟩ ∧
        loadCache db initCache ≠ initCache) ∧
    (∀ ops : List TaskOp,
        (getTasks (applyOps RagDB.initDB ops) initCache none).2 =
          (dictById ((applyOps RagDB.initDB ops).rows)).map Prod.snd) := by
  refine ⟨rfl, rfl, rfl, ?_, ?_, ?_⟩
  · intro ops
    exact applyOps_version_mono RagDB.initDB ops
  · intro db
    have hre := loadCache_reload db initCache (Or.inl rfl)
    refine ⟨hre, ?_⟩
    rw [hre]
    intro h
    have := congrArg CacheState.loaded h
    simp [initCache] at this
  · intro ops
    show cacheValues (loadCache (applyOps RagDB.initDB ops) initCache) = _
    rw [loadCache_reload _ initCache (Or.inl rfl)]
    rfl

theorem claim_C9_witness :
    loadCache RagDB.initDB initCache =
      ⟨RagDB.initDB.version, dictById RagDB.initDB.rows, true⟩ :=
  (claim_C9_initial_cache_never_hits.2.2.2.2.1 RagDB.initDB).1

/-- C10: for a filter tag other than the empty string and 'All',
CacheService.get_tasks returns exactly the cached tasks whose
comma-split tags list contains the tag as an exact element, so at the
cache layer a proper substring of a stored tag does not match, even
though the database-level tag query (LIKE '%tag%') matches it. -/
theorem claim_C10_cache_filter_exact_token :
    (∀ (db : DBState) (c : CacheState) (tag : String),
        tag ≠ "" → tag ≠ "All" →
        (getTasks db c (some tag)).2 =
          (cacheValues (loadCache db c)).filter
            (fun t => (pySplitComma t.tags).contains tag) ∧
        ∀ t : Task, t ∈ (getTasks db c (some tag)).2 ↔
          t ∈ cacheValues (loadCache db c) ∧ tag ∈ pySplitComma t.tags) ∧
    ¬ ("Project A" ∈ pySplitComma "Project AB") ∧
    getTasksByTags [⟨1, "P", "", "Project AB", "ts"⟩] "Project A" =
      [⟨1, "P", "", "Project AB", "ts"⟩] := by
  refine ⟨?_, by decide, by decide⟩
  intro db c tag h1 h2
  constructor
  · simp [getTasks, h1, h2]
  · intro t
    simp [getTasks, h1, h2, List.mem_filter]

theorem claim_C10_witness :
    (getTasks RagDB.initDB initCache (some "work")).2 =
      (cacheValues (loadCache RagDB.initDB initCache)).filter
        (fun t => (pySplitComma t.tags).contains "work") :=
  (claim_C10_cache_filter_exact_token.1 RagDB.initDB initCache "work"
    (by decide) (by decide)).1

end Cache

namespace Ctx

/-- C5: after a rebuild, the number of stored vectors equals the number
of stored task identifiers and both equal the number of documents built
from the tasks (one per task); and the rebuilt vectors and identifiers
do not depend on the prior index contents (full replace, no append). -/
theorem claim_C5_index_parallel_after_rebuild :
    ∀ (embed : String → List Int) (env : EnhanceEnv) (prior : VIndex)
      (tasks : List CtxTask),
      (buildIndexForTasks embed env prior tasks).vectors.length =
        (buildIndexForTasks embed env prior tasks).taskIds.length ∧
      (buildIndexForTasks embed env prior tasks).taskIds.length = tasks.length ∧
      ∀ prior' : VIndex,
        (buildIndexForTasks embed env prior' tasks).vectors =
          (buildIndexForTasks embed env prior tasks).vectors ∧
        (buildIndexForTasks embed env prior' tasks).taskIds =
          (buildIndexForTasks embed env prior tasks).taskIds := by
  intro embed env prior tasks
  refine ⟨?_, ?_, fun prior' => ⟨rfl, rfl⟩⟩ <;>
    simp [buildIndexForTasks, taskTexts]

theorem claim_C5_witness :
    (buildIndexForTasks (fun _ => [0]) ⟨false, none⟩ ⟨[], [], []⟩
        [⟨1, "a", "b", "t"⟩]).vectors.length =
      (buildIndexForTasks (fun _ => [0]) ⟨false, none⟩ ⟨[], [], []⟩
        [⟨1, "a", "b", "t"⟩]).taskIds.length ∧
    (buildIndexForTasks (fun _ => [0]) ⟨false, none⟩ ⟨[], [], []⟩
        [⟨1, "a", "b", "t"⟩]).taskIds.length = 1 :=
  ⟨(claim_C5_index_parallel_after_rebuild (fun _ => [0]) ⟨false, none⟩
      ⟨[], [], []⟩ [⟨1, "a", "b", "t"⟩]).1,
   (claim_C5_index_parallel_after_rebuild (fun _ => [0]) ⟨false, none⟩
      ⟨[], [], []⟩ [⟨1, "a", "b", "t"⟩]).2.1⟩

theorem enumFrom_map_snd_comp {α β : Type} (f : α → β) :
    ∀ (n : Nat) (l : List α), (l.enumFrom n).map (fun p => f p.2) = l.map f
  | _, [] => rfl
  | n, a :: l => by
      simp only [List.enumFrom, List.map_cons]
      rw [enumFrom_map_snd_comp f (n + 1) l]

theorem enhance_none_eq_dict (u : Bool) (tasks : List (Nat × String)) :
    enhanceTaskDescriptions ⟨u, none⟩ tasks = dictOfPairs tasks := by
  cases u <;> rfl

theorem enum_map_key (l : List (Nat × String)) :
    l.enum.map (fun p => p.2.1) = l.map Prod.fst :=
  enumFrom_map_snd_comp (Prod.fst : Nat × String → Nat) 0 l

theorem enhance_key_isSome (env : EnhanceEnv) (tasks : List (Nat × String))
    (id : Nat) :
    (dlookup id (enhanceTaskDescriptions env tasks)).isSome = true ↔
      id ∈ tasks.map Prod.fst := by
  obtain ⟨u, g⟩ := env
  have hdict : (dlookup id (dictOfPairs tasks)).isSome = true ↔
      id ∈ tasks.map Prod.fst := by
    have h := isSome_dlookup_foldl (Prod.fst : Nat × String → Nat) Prod.snd tasks [] id
    simpa [dictOfPairs, dlookup] using h
  cases g with
  | none => rw [enhance_none_eq_dict]; exact hdict
  | some resp =>
      cases u with
      | false => simpa [enhanceTaskDescriptions] using hdict
      | true =>
          have h := isSome_dlookup_foldl
            (fun p : Nat × (Nat × String) => p.2.1)
            (fun p : Nat × (Nat × String) =>
              if p.1 < ((resp.splitOn "TASK:").drop 1).length then
                p.2.2 ++ " " ++ (splitTagsPart (((resp.splitOn "TASK:").drop 1).getD p.1 "").trim).1
                  ++ " " ++ (splitTagsPart (((resp.splitOn "TASK:").drop 1).getD p.1 "").trim).2
              else p.2.2)
            tasks.enum [] id
          rw [enum_map_key tasks] at h
          simpa [enhanceTaskDescriptions, dlookup] using h

theorem mem_enum_get {α : Type} (l : List α) (i : Nat) (h : i < l.length) :
    (i, l.get ⟨i, h⟩) ∈ l.enum := by
  have h1 : i < l.enum.length := by simpa using h
  have h2 : l.enum.get ⟨i, h1⟩ = (i, l.get ⟨i, h⟩) := by
    simp [List.enum_eq_enumFrom]
  exact h2 ▸ List.get_mem l.enum i h1

/-- C7: the enhancement result always keys exactly the input ids; when
the generation call raises every id keeps its unmodified input text;
and when the response parses to fewer TASK:-delimited records than
there are inputs, every input beyond the parsed records keeps its
unmodified text — no id is ever dropped. -/
theorem claim_C7_enhancement_never_drops_ids :
    (∀ (env : EnhanceEnv) (tasks : List (Nat × String)) (id : Nat),
        (dlookup id (enhanceTaskDescriptions env tasks)).isSome = true ↔
          id ∈ tasks.map Prod.fst) ∧
    (∀ (u : Bool) (tasks : List (Nat × String)),
        (tasks.map Prod.fst).Nodup →
        ∀ p ∈ tasks,
          dlookup p.1 (enhanceTaskDescriptions ⟨u, none⟩ tasks) = some p.2) ∧
    (∀ (resp : String) (tasks : List (Nat × String)),
        (tasks.map Prod.fst).Nodup →
        ∀ (i : Nat) (h : i < tasks.length),
          ((resp.splitOn "TASK:").drop 1).length ≤ i →
          dlookup (tasks.get ⟨i, h⟩).1
              (enhanceTaskDescriptions ⟨true, some resp⟩ tasks) =
            some (tasks.get ⟨i, h⟩).2) := by
  refine ⟨enhance_key_isSome, ?_, ?_⟩
  · intro u tasks hnd p hp
    rw [enhance_none_eq_dict]
    exact dlookup_foldl_of_mem Prod.fst Prod.snd tasks [] p hnd hp
  · intro resp tasks hnd i h hle
    have hnd' : (tasks.enum.map (fun p : Nat × (Nat × String) => p.2.1)).Nodup := by
      rw [enum_map_key tasks]
      exact hnd
    have ha := mem_enum_get tasks i h
    have hmain := dlookup_foldl_of_mem
      (fun p : Nat × (Nat × String) => p.2.1)
      (fun p : Nat × (Nat × String) =>
        if p.1 < ((resp.splitOn "TASK:").drop 1).length then
          p.2.2 ++ " " ++ (splitTagsPart (((resp.splitOn "TASK:").drop 1).getD p.1 "").trim).1
            ++ " " ++ (splitTagsPart (((resp.splitOn "TASK:").drop 1).getD p.1 "").trim).2
        else p.2.2)
      tasks.enum [] (i, tasks.get ⟨i, h⟩) hnd' ha
    have hnlt : ¬ i < ((resp.splitOn "TASK:").drop 1).length := Nat.not_lt.mpr hle
    simp only [List.length_drop] at hnlt
    simpa [enhanceTaskDescriptions, hnlt] using hmain

theorem claim_C7_witness :
    ((([(1, "a"), (2, "b"), (3, "c")] : List (Nat × String)).map Prod.fst).Nodup) ∧
    dlookup 1 (enhanceTaskDescriptions ⟨true, none⟩ [(1, "a"), (2, "b"), (3, "c")])
      = some "a" ∧
    dlookup 2 (enhanceTaskDescriptions ⟨true, none⟩ [(1, "a"), (2, "b"), (3, "c")])
      = some "b" ∧
    dlookup 3 (enhanceTaskDescriptions ⟨true, none⟩ [(1, "a"), (2, "b"), (3, "c")])
      = some "c" :=
  ⟨by decide,
   claim_C7_enhancement_never_drops_ids.2.1 true [(1, "a"), (2, "b"), (3, "c")]
     (by decide) (1, "a") (by decide),
   claim_C7_enhancement_never_drops_ids.2.1 true [(1, "a"), (2, "b"), (3, "c")]
     (by decide) (2, "b") (by decide),
   claim_C7_enhancement_never_drops_ids.2.1 true [(1, "a"), (2, "b"), (3, "c")]
     (by decide) (3, "c") (by decide)⟩

theorem filter_ne_replicate (n : Nat) :
    (List.replicate n (-1 : Int)).filter (fun i => i != -1) = [] := by
  induction n with
  | zero => rfl
  | succ n ih => simp [List.replicate_succ, ih]

theorem searchIndex_eq (st : VIndex) (embed : String → List Int) (q : String)
    (k : Nat) :
    searchIndex st embed q k =
      (searchResultIndices st.vectors (embed q) k).map
        (fun i => st.taskIds.getD i 0) := by
  unfold searchIndex faissSearch
  rw [List.filter_append]
  have h1 : ((searchResultIndices st.vectors (embed q) k).map
      (fun i => Int.ofNat i)).filter (fun i => i != -1) =
      (searchResultIndices st.vectors (embed q) k).map (fun i => Int.ofNat i) := by
    apply List.filter_eq_self.mpr
    intro b hb
    obtain ⟨i, _, rfl⟩ := List.mem_map.mp hb
    simp only [bne_iff_ne, ne_eq, Int.ofNat_eq_coe]
    intro hcontra
    omega
  rw [h1, filter_ne_replicate, List.append_nil, List.map_map]
  apply List.map_congr_left
  intro i _
  simp

theorem argsort_perm (vecs : List (List Int)) (q : List Int) :
    (argsortByDist vecs q).Perm (List.range vecs.length) := by
  unfold argsortByDist
  have hp := (List.perm_insertionSort distRank
    ((List.range vecs.length).map (fun i => (sqDist (vecs.getD i []) q, i)))).map Prod.snd
  refine hp.trans ?_
  rw [List.map_map]
  have he : (List.map (Prod.snd ∘ fun i => (sqDist (vecs.getD i []) q, i))
      (List.range vecs.length)) = List.range vecs.length :=
    List.map_id _
  rw [he]

theorem argsort_length (vecs : List (List Int)) (q : List Int) :
    (argsortByDist vecs q).length = vecs.length :=
  (argsort_perm vecs q).length_eq.trans (List.length_range _)

theorem range_map_getD (ids : List Nat) :
    (List.range ids.length).map (fun i => ids.getD i 0) = ids := by
  apply List.ext_getElem
  · simp
  · intro j h1 h2
    simp [List.getD_eq_getElem?_getD, List.getElem?_eq_getElem h2]

theorem argsort_dists_sorted (vecs : List (List Int)) (q : List Int) :
    List.Sorted (· ≤ ·)
      ((argsortByDist vecs q).map (fun i => sqDist (vecs.getD i []) q)) := by
  unfold argsortByDist
  rw [List.map_map]
  have hcg : (List.insertionSort distRank
      ((List.range vecs.length).map (fun i => (sqDist (vecs.getD i []) q, i)))).map
        ((fun i => sqDist (vecs.getD i []) q) ∘ Prod.snd) =
      (List.insertionSort distRank
      ((List.range vecs.length).map (fun i => (sqDist (vecs.getD i []) q, i)))).map
        Prod.fst := by
    apply List.map_congr_left
    intro p hp
    have hp' : p ∈ (List.range vecs.length).map
        (fun i => (sqDist (vecs.getD i []) q, i)) :=
      (List.perm_insertionSort distRank _).mem_iff.mp hp
    obtain ⟨i, _, rfl⟩ := List.mem_map.mp hp'
    rfl
  rw [hcg]
  have hs := List.sorted_insertionSort distRank
    ((List.range vecs.length).map (fun i => (sqDist (vecs.getD i []) q, i)))
  exact hs.map Prod.fst (by
    intro a b hab
    unfold distRank at hab
    omega)

/-- C6: search with k = 0 returns the empty list; search on an empty
index returns the empty list rather than an error; and when k is at
least the number of indexed vectors the result is a permutation of all
indexed identifiers (hence each at most once when the identifiers are
distinct), with the underlying row indices ordered by nondecreasing
squared distance to the query embedding. -/
theorem claim_C6_search_edge_cases :
    (∀ (st : VIndex) (embed : String → List Int) (q : String),
        searchIndex st embed q 0 = []) ∧
    (∀ (st : VIndex) (embed : String → List Int) (q : String) (k : Nat),
        st.vectors = [] → searchIndex st embed q k = []) ∧
    (∀ (st : VIndex) (embed : String → List Int) (q : String) (k : Nat),
        st.taskIds.length = st.vectors.length → st.vectors.length ≤ k →
        (searchIndex st embed q k).Perm st.taskIds ∧
        (st.taskIds.Nodup → (searchIndex st embed q k).Nodup) ∧
        List.Sorted (· ≤ ·)
          ((searchResultIndices st.vectors (embed q) k).map
            (fun i => sqDist (st.vectors.getD i []) (embed q)))) := by
  refine ⟨?_, ?_, ?_⟩
  · intro st embed q
    rw [searchIndex_eq]
    simp [searchResultIndices]
  · intro st embed q k hv
    rw [searchIndex_eq]
    simp [searchResultIndices, argsortByDist, hv, List.insertionSort]
  · intro st embed q k hlen hk
    have htake : searchResultIndices st.vectors (embed q) k =
        argsortByDist st.vectors (embed q) := by
      unfold searchResultIndices
      exact List.take_of_length_le (by rw [argsort_length]; exact hk)
    have hperm : (searchIndex st embed q k).Perm st.taskIds := by
      rw [searchIndex_eq, htake]
      refine ((argsort_perm st.vectors (embed q)).map _).trans ?_
      rw [← hlen, range_map_getD]
    refine ⟨hperm, fun hnd => hperm.nodup_iff.mpr hnd, ?_⟩
    rw [htake]
    exact argsort_dists_sorted st.vectors (embed q)

theorem claim_C6_witness :
    (([7, 9] : List Nat).length = ([[2], [0]] : List (List Int)).length) ∧
    (([[2], [0]] : List (List Int)).length ≤ 3) ∧
    (searchIndex ⟨[[2], [0]], [7, 9], []⟩ (fun _ => [1]) "x" 3).Perm [7, 9] :=
  ⟨rfl, by decide,
   (claim_C6_search_edge_cases.2.2 ⟨[[2], [0]], [7, 9], []⟩ (fun _ => [1]) "x" 3
     rfl (by decide)).1⟩

end Ctx

namespace Chunk

theorem chunkList_nil (c o : Nat) : chunkList c o [] = [] := by
  rw [chunkList]
  simp

theorem chunkList_cons (c o : Nat) (l : List Char) (h : l ≠ []) :
    chunkList c o l = l.take c :: chunkList c o (l.drop (max 1 (c - o))) := by
  rw [chunkList]
  simp [h]

theorem flatten_drop_chunkList (c o : Nat) (hco : o < c) :
    ∀ (n : Nat) (l : List Char), l.length ≤ n →
      ((chunkList c o l).map (List.drop o)).flatten = l.drop o := by
  intro n
  induction n with
  | zero =>
      intro l hl
      have h0 : l = [] := List.eq_nil_of_length_eq_zero (Nat.le_zero.mp hl)
      subst h0
      simp [chunkList_nil]
  | succ n ih =>
      intro l hl
      by_cases h : l = []
      · subst h
        simp [chunkList_nil]
      · rw [chunkList_cons c o l h]
        have hmax : max 1 (c - o) = c - o := by omega
        rw [hmax]
        simp only [List.map_cons, List.flatten_cons]
        rw [ih (l.drop (c - o)) (by
          have hpos : 0 < l.length := List.length_pos.mpr h
          simp only [List.length_drop]
          omega)]
        have hoc : o + (c - o) = c := by omega
        have h4 : List.drop o (List.take c l) = List.take (c - o) (List.drop o l) := by
          rw [List.take_drop, hoc]
        rw [h4, List.drop_drop, Nat.add_comm (c - o) o]
        exact List.drop_take_append_drop l o (c - o)

theorem chunkList_get (c o : Nat) (hco : o < c) :
    ∀ (n : Nat) (l : List Char), l.length ≤ n →
      ∀ (i : Nat) (h : i < (chunkList c o l).length),
        (chunkList c o l).get ⟨i, h⟩ = (l.drop (i * (c - o))).take c := by
  intro n
  induction n with
  | zero =>
      intro l hl i h
      have h0 : l = [] := List.eq_nil_of_length_eq_zero (Nat.le_zero.mp hl)
      subst h0
      rw [chunkList_nil] at h
      cases h
  | succ n ih =>
      intro l hl i h
      by_cases hn : l = []
      · subst hn
        rw [chunkList_nil] at h
        cases h
      · have hmax : max 1 (c - o) = c - o := by omega
        have hcons := chunkList_cons c o l hn
        rw [hmax] at hcons
        have hlen : (l.drop (c - o)).length ≤ n := by
          have hpos : 0 < l.length := List.length_pos.mpr hn
          simp only [List.length_drop]
          omega
        cases i with
        | zero =>
            simp [hcons, List.get]
        | succ i =>
            have h' : i < (chunkList c o (l.drop (c - o))).length := by
              rw [hcons] at h
              simpa using h
            have hstep := ih (l.drop (c - o)) hlen i h'
            calc (chunkList c o l).get ⟨i + 1, h⟩
                = (l.take c :: chunkList c o (l.drop (c - o))).get
                    ⟨i + 1, by rw [← hcons]; exact h⟩ := List.get_of_eq hcons _
              _ = (chunkList c o (l.drop (c - o))).get ⟨i, h'⟩ := rfl
              _ = ((l.drop (c - o)).drop (i * (c - o))).take c := hstep
              _ = (l.drop ((i + 1) * (c - o))).take c := by
                  rw [List.drop_drop, Nat.succ_mul, Nat.add_comm (i * (c - o)) (c - o)]

/-- C8: for chunk_size > chunk_overlap, the sliding-window chunker's
i-th chunk is the window of chunk_size characters starting at stride
i * (chunk_size - chunk_overlap); concatenating the chunks' covered
spans with the declared overlap removed reconstructs the original text
exactly; and the same text and parameters always yield the same chunk
sequence. -/
theorem claim_C8_chunking_roundtrip :
    ∀ (c o : Nat), o < c → ∀ (l : List Char),
      reassemble o (chunkList c o l) = l ∧
      (∀ (i : Nat) (h : i < (chunkList c o l).length),
          (chunkList c o l).get ⟨i, h⟩ = (l.drop (i * (c - o))).take c) ∧
      (∀ l' : List Char, l = l' → chunkList c o l = chunkList c o l') := by
  intro c o hco l
  refine ⟨?_, fun i h => chunkList_get c o hco l.length l (le_refl _) i h,
    fun l' hl => hl ▸ rfl⟩
  by_cases h : l = []
  · subst h
    simp [chunkList_nil, reassemble]
  · rw [chunkList_cons c o l h]
    have hmax : max 1 (c - o) = c - o := by omega
    rw [hmax]
    show l.take c ++ ((chunkList c o (l.drop (c - o))).map (List.drop o)).flatten = l
    rw [flatten_drop_chunkList c o hco (l.drop (c - o)).length _ (le_refl _)]
    rw [List.drop_drop]
    have hc : c - o + o = c := by omega
    rw [hc, List.take_append_drop]

theorem claim_C8_witness :
    (1 < 3) ∧ reassemble 1 (chunkList 3 1 "abcdefg".data) = "abcdefg".data :=
  ⟨by decide, (claim_C8_chunking_roundtrip 3 1 (by decide) "abcdefg".data).1⟩

end Chunk

end SandboxRag
